import Mathlib

/-!
Verification of the cigarette source-allocation backend
(`src/backend/data_loader.py`, `src/backend/constraint_manager.py`,
`src/backend/linear_programming.py`) against its specification.

Quantities (allocations, demands, prices) are modelled as rationals; a SKU
row of the allocation matrix is a `List ℚ` indexed by round position; table
cells that may be missing (pandas `NaN`) are `Option` values.
-/

namespace HuoyuanSpec

/-! ## Data facade: unit box price (`DataLoader._create_auxiliary_columns`) -/

/-- Per-SKU unit box price (`单箱价格`) as computed by
`DataLoader._create_auxiliary_columns`: when the `条支比` column is present,
a row's missing value is coerced to 200 and the price is
`批发价 * 50000 / 条支比`; when the column is absent, the code computes
`批发价 * 2500` instead. -/
def unitBoxPrice (hasStickRatioColumn : Bool) (wholesalePrice : ℚ)
    (stickRatio : Option ℚ) : ℚ :=
  if hasStickRatioColumn then
    wholesalePrice * 50000 / stickRatio.getD 200
  else
    wholesalePrice * 2500

/-! ## C-type membership predicates

Three different sites decide whether a SKU is C-type:
* `ConstraintManager._create_auxiliary_flags` (used by the validator's C9
  checks): `C.notna() & (C.str.strip() != '')`;
* `LinearProgrammingAllocator.add_c_type_constraints`:
  `C.astype(str).str.contains('C')`;
* `LinearProgrammingAllocator._add_c_subtype_constraints` (the C-total of the
  长/细 share constraints): `str(row['C']) == 'C'`.
-/

/-- Python `str.strip()` whitespace test. -/
def pyIsSpace (c : Char) : Bool := c.isWhitespace

/-- Python `str.strip()` on a character list: drop leading and trailing
whitespace. -/
def pyStripList (l : List Char) : List Char :=
  ((l.dropWhile pyIsSpace).reverse.dropWhile pyIsSpace).reverse

/-- `astype(str)` / `str(...)` on a possibly missing cell: pandas `NaN`
prints as `"nan"`. -/
def pyStrOfCell : Option String → String
  | none => "nan"
  | some s => s

/-- Validator-side C-type flag (`ConstraintManager._create_auxiliary_flags`):
the cell is present and non-empty after stripping whitespace. -/
def validatorIsCType (c : Option String) : Bool :=
  match c with
  | none => false
  | some s => !(pyStripList s.toList).isEmpty

/-- MILP-side C-type test (`add_c_type_constraints`): the cell's string form
contains the character `C`. -/
def milpIsCType (c : Option String) : Bool :=
  (pyStrOfCell c).toList.contains 'C'

/-- C-subtype-side C-type test (`_add_c_subtype_constraints`): the cell's
string form equals `"C"` exactly. -/
def subtypeIsCType (c : Option String) : Bool :=
  decide (pyStrOfCell c = "C")

/-! ## Aggregate validation (`ConstraintManager.validate_all_constraints`) -/

/-- The `enable_*` flags read by `validate_all_constraints`
(each defaults to true). -/
structure ValidatorFlags where
  enableDemand : Bool := true
  enablePrice : Bool := true
  enableVolume : Bool := true
  enableDemandBased : Bool := true
  enablePriceBased : Bool := true
  enableCType : Bool := true

/-- The validator families registered by `validate_all_constraints`, in
source order: `demand`, `price`, `volume` each behind its flag,
`fixed_allocation` and `first_round_supply` unconditionally, then
`demand_based_priority`, `price_based`, `c_type` behind their flags. -/
def enabledValidators (f : ValidatorFlags) : List String :=
  (if f.enableDemand then ["demand"] else []) ++
  (if f.enablePrice then ["price"] else []) ++
  (if f.enableVolume then ["volume"] else []) ++
  ["fixed_allocation", "first_round_supply"] ++
  (if f.enableDemandBased then ["demand_based_priority"] else []) ++
  (if f.enablePriceBased then ["price_based"] else []) ++
  (if f.enableCType then ["c_type"] else [])

/-- `all_constraint_names` from `validate_all_constraints`. -/
def allConstraintNames : List String :=
  ["demand", "price", "volume", "fixed_allocation", "first_round_supply",
   "demand_based_priority", "price_based", "c_type"]

/-- The skipped-families list of the aggregate report: every known family
name that was not registered. -/
def skippedValidators (f : ValidatorFlags) : List String :=
  allConstraintNames.filter (fun n => !(enabledValidators f).contains n)

/-! ## Solve result dispatch (`LinearProgrammingAllocator.solve`) -/

/-- PuLP `LpStatus` values as dispatched on by `solve`. -/
inductive PulpStatus where
  | optimal
  | infeasible
  | unbounded
  | notSolved
  | undefined
deriving DecidableEq

/-- The PuLP `LpStatus` display strings. -/
def statusString : PulpStatus → String
  | .optimal => "Optimal"
  | .infeasible => "Infeasible"
  | .unbounded => "Unbounded"
  | .notSolved => "Not Solved"
  | .undefined => "Undefined"

/-- The status / allocation-matrix pair returned by `solve`. -/
structure SolveOutcome where
  status : String
  allocationMatrix : Option (List (List ℚ))
deriving DecidableEq

/-- Result dispatch of `solve`: `Optimal` returns the extracted matrix,
`Infeasible` is reported explicitly with no matrix, and every other solver
status is returned as its status string with no matrix. -/
def solveDispatch (s : PulpStatus) (extracted : List (List ℚ)) : SolveOutcome :=
  match s with
  | .optimal => ⟨"Optimal", some extracted⟩
  | .infeasible => ⟨"Infeasible", none⟩
  | s => ⟨statusString s, none⟩

/-- Modelled from the spec: the external solver contract (spec section 6)
returns one of Optimal, Infeasible, TimeLimit, Unbounded, Error; a CBC
wall-clock stop holding a feasible incumbent surfaces through PuLP as the
non-optimal, non-infeasible status `Not Solved`. -/
def timeLimitStop : PulpStatus := .notSolved

/-! ## Post-processing passes
(`LinearProgrammingAllocator._handle_small_allocations` and
`_handle_tiny_unallocated_demand`)

Both passes act independently on each SKU row; a row is a `List ℚ` indexed
by round position. Python's `max(keys, key=...)` returns the first key
attaining the maximal value, and since the threshold predicates are pure
value tests, "the first sub-threshold round holding the maximal value among
the rounds with value at least the threshold" is the first round whose value
equals that maximum. -/

/-- `0 < v < 0.1`: a positive sub-threshold allocation
(`small_allocations` of `_handle_small_allocations`). -/
def isSmallAlloc (v : ℚ) : Bool := decide (0 < v) && decide (v < 1/10)

/-- `v >= 0.1` (`large_allocations` of `_handle_small_allocations`). -/
def isLargeAlloc (v : ℚ) : Bool := decide (1/10 ≤ v)

/-- Zero a positive sub-threshold cell, keep every other cell. -/
def zeroSmall (v : ℚ) : ℚ := if isSmallAlloc v then 0 else v

/-- `total_small`: the sum of the positive sub-threshold cells of a row. -/
def smallSum (row : List ℚ) : ℚ := (row.filter isSmallAlloc).sum

/-- Maximum of a list of rationals with a starting default. -/
def listMaxD (l : List ℚ) (d : ℚ) : ℚ := l.foldl max d

/-- Add `t` to the first cell holding value `m` (the following cells are
positive-sub-threshold-zeroed, the preceding ones as well — the cell holding
`m` is never sub-threshold when `m` is a super-threshold maximum). -/
def mergeIntoMax : List ℚ → ℚ → ℚ → List ℚ
  | [], _, _ => []
  | v :: rest, m, t =>
    if v = m then (v + t) :: rest.map zeroSmall
    else zeroSmall v :: mergeIntoMax rest m t

/-- No-super-threshold case of `_handle_small_allocations`: the first
positive sub-threshold cell receives the whole sub-threshold sum, the later
sub-threshold cells are zeroed, other cells are unchanged. -/
def mergeSmallsFirst : List ℚ → ℚ → List ℚ
  | [], _ => []
  | v :: rest, t =>
    if isSmallAlloc v then t :: rest.map zeroSmall
    else v :: mergeSmallsFirst rest t

/-- `_handle_small_allocations` on one SKU row: if the row has both positive
sub-threshold cells and cells `>= 0.1`, the sub-threshold total moves onto
the first round attaining the maximal super-threshold value and the
sub-threshold cells are zeroed; if only sub-threshold cells exist, they merge
into the first of them when their sum is `>= 0.1` and are all zeroed
otherwise. -/
def smallPassRow (row : List ℚ) : List ℚ :=
  if row.any isSmallAlloc then
    if row.any isLargeAlloc then
      mergeIntoMax row (listMaxD (row.filter isLargeAlloc) 0) (smallSum row)
    else if 1/10 ≤ smallSum row then mergeSmallsFirst row (smallSum row)
    else row.map zeroSmall
  else row

/-- Add `u` to the first cell holding value `m`, keeping all other cells. -/
def addToFirstMax : List ℚ → ℚ → ℚ → List ℚ
  | [], _, _ => []
  | v :: rest, m, u =>
    if v = m then (v + u) :: rest
    else v :: addToFirstMax rest m u

/-- Maximum over the strictly positive cells of a row (`allocated_rounds`
of `_handle_tiny_unallocated_demand`), defaulting to 0. -/
def posMaxD (row : List ℚ) : ℚ :=
  listMaxD (row.filter (fun v => decide (0 < v))) 0

/-- `_handle_tiny_unallocated_demand` on one SKU row: rows with
non-positive demand are skipped; otherwise, whenever
`demand - sum <= 0.01` (note: with no lower bound on the residue), the
residue is added to the first round attaining the maximal positive
allocation, or written into the first round when no round is positive. -/
def tinyPassRow (demand : ℚ) (row : List ℚ) : List ℚ :=
  if demand ≤ 0 then row
  else
    if demand - row.sum ≤ 1/100 then
      if row.any (fun v => decide (0 < v)) then
        addToFirstMax row (posMaxD row) (demand - row.sum)
      else
        row.set 0 (demand - row.sum)
    else row

/-- The first round attaining the maximal super-threshold value
(`max_round` of the merging branch of `_handle_small_allocations`). -/
def largeArgmax (row : List ℚ) : ℕ :=
  row.findIdx (fun v => decide (v = listMaxD (row.filter isLargeAlloc) 0))

/-- The first positive sub-threshold round (`first_round` of the
no-super-threshold branch of `_handle_small_allocations`). -/
def firstSmallIdx (row : List ℚ) : ℕ := row.findIdx isSmallAlloc

/-- The first round attaining the maximal positive value (`max_round` of
`_handle_tiny_unallocated_demand`). -/
def posArgmax (row : List ℚ) : ℕ :=
  row.findIdx (fun v => decide (v = posMaxD row))

/-! ## Demand-split constraints
(`LinearProgrammingAllocator.add_demand_split_constraints`) -/

/-- The two forms of the per-SKU rounds-used constraint. -/
inductive BoundKind where
  | atMostTwo
  | atLeastTwo
deriving DecidableEq

/-- The rounds-used constraint emitted for one SKU: per-round binary
indicators are coupled by `x <= bigM * y` and `x >= eps * y`, and the sum of
the indicators is bounded according to `bound`. -/
structure SplitConstraint where
  bigM : ℚ
  eps : ℚ
  bound : BoundKind
deriving DecidableEq

/-- `DataLoader.get_existing_allocations` keeps only the strictly positive
cells of a round column. -/
def existingEntry (raw : ℚ) : Option ℚ :=
  if 0 < raw then some raw else none

/-- The `is_existing` test of `add_demand_split_constraints`: the SKU
appears in some round's existing-allocation index with a value `>= 0`. -/
def isExistingSKU (fixedCells : List (Option ℚ)) : Bool :=
  fixedCells.any fun o =>
    match o with
    | some v => decide (0 ≤ v)
    | none => false

/-- `add_demand_split_constraints` restricted to one SKU, given its demand
and the raw pre-existing allocation value for each round: SKUs with
non-positive demand or a fixed cell get no constraint; otherwise demand
below 50 or up to 100 gives rounds-used at most 2, demand in (100, 250]
gives rounds-used at least 2, and larger demand gives no constraint. The
binary couplings use `M = 1000000` and `eps = 0.01`. -/
def demandSplitConstraint (demand : ℚ) (rawFixed : List ℚ) :
    Option SplitConstraint :=
  if demand ≤ 0 then none
  else if isExistingSKU (rawFixed.map existingEntry) then none
  else if demand < 50 then some ⟨1000000, 1/100, .atMostTwo⟩
  else if demand ≤ 100 then some ⟨1000000, 1/100, .atMostTwo⟩
  else if demand ≤ 250 then some ⟨1000000, 1/100, .atLeastTwo⟩
  else none

/-! ## Volume targets and overrides
(`LinearProgrammingAllocator.add_volume_constraints` and
`ConstraintManager.validate_volume_constraints`) -/

/-- A per-round volume record: target and the tolerance-derived bounds. -/
structure RoundVolume where
  target : ℚ
  upper : ℚ
  lower : ℚ
deriving DecidableEq

/-- Python dict truthiness plus membership test used by both sites: an
absent (`None`) or empty override map never matches; otherwise the round is
looked up by name. -/
def overrideLookup (ov : Option (List (String × ℚ))) (r : String) :
    Option ℚ :=
  match ov with
  | none => none
  | some l => if l.isEmpty then none else l.lookup r

/-- MILP side (`add_volume_constraints`): the override value takes
precedence over the table's `总量`; bounds are `target * (1 ± tolerance)`. -/
def milpVolumeBounds (ov : Option (List (String × ℚ))) (table : String → ℚ)
    (tol : ℚ) (r : String) : RoundVolume :=
  match overrideLookup ov r with
  | some v => ⟨v, v * (1 + tol), v * (1 - tol)⟩
  | none => ⟨table r, table r * (1 + tol), table r * (1 - tol)⟩

/-- The merged per-round record built by `ConstraintManager.__init__`
(override value if present, else table value, with tolerance bounds). -/
def initRoundVolume (ov : Option (List (String × ℚ))) (table : String → ℚ)
    (tol : ℚ) (r : String) : RoundVolume :=
  match overrideLookup ov r with
  | some v => ⟨v, v * (1 + tol), v * (1 - tol)⟩
  | none => ⟨table r, table r * (1 + tol), table r * (1 - tol)⟩

/-- Validator side (`validate_volume_constraints`): the override branch
recomputes target and bounds from the override; the fallback reads the
merged record of `__init__`. -/
def validatorVolumeBounds (ov : Option (List (String × ℚ)))
    (table : String → ℚ) (tol : ℚ) (r : String) : RoundVolume :=
  match overrideLookup ov r with
  | some v => ⟨v, v * (1 + tol), v * (1 - tol)⟩
  | none => initRoundVolume ov table tol r

/-! ## First-round supply cap
(`LinearProgrammingAllocator.create_variables` and
`ConstraintManager.validate_first_round_supply_constraints`) -/

/-- Upper bound of a non-fixed decision variable in `create_variables`:
`min(demand, supply if round_name == '第一轮' else demand)`. -/
def varUpperBound (roundName : String) (demand supply : ℚ) : ℚ :=
  min demand (if roundName = "第一轮" then supply else demand)

/-- Python `min` over a non-empty list of strings: lexicographic comparison
by code point, keeping the earliest minimum. -/
def pythonMinString : List String → Option String
  | [] => none
  | s :: rest => some (rest.foldl (fun acc x => if x < acc then x else acc) s)

/-- `validate_first_round_supply_constraints` picks the first round as
`min(self.rounds)`. -/
def validatorFirstRound (rounds : List String) : Option String :=
  pythonMinString rounds

/-- The `cn_num_map` rank of a Chinese numeral
(`DataLoader._detect_rounds`), defaulting to 0. -/
def cnNumRank (c : Char) : ℕ :=
  if c = '一' then 1
  else if c = '二' then 2
  else if c = '三' then 3
  else if c = '四' then 4
  else if c = '五' then 5
  else if c = '六' then 6
  else 0

/-- The sort key `cn_num_map.get(x[1], 0)` used to put rounds in canonical
order: the rank of the label's second character. -/
def roundRank (s : String) : ℕ := cnNumRank (s.toList.getD 1 ' ')

/-! ### Helper lemmas about the passes -/

theorem smallSum_cons (v : ℚ) (rest : List ℚ) :
    smallSum (v :: rest) =
      (if isSmallAlloc v then v else 0) + smallSum rest := by
  by_cases h : isSmallAlloc v = true <;>
    simp [smallSum, List.filter_cons, h]

theorem smallSum_nonneg (row : List ℚ) : 0 ≤ smallSum row := by
  induction row with
  | nil => simp [smallSum]
  | cons v rest ih =>
    rw [smallSum_cons]
    by_cases h : isSmallAlloc v = true
    · have hv : 0 < v := by
        have := h
        unfold isSmallAlloc at this
        exact of_decide_eq_true (Bool.and_elim_left this)
      simp only [h, if_pos]
      linarith
    · simp only [h, if_neg]
      simpa using ih

theorem zeroSmall_nonneg {v : ℚ} (h : 0 ≤ v) : 0 ≤ zeroSmall v := by
  unfold zeroSmall
  by_cases hs : isSmallAlloc v = true <;> simp [hs, h]

theorem map_zeroSmall_sum (row : List ℚ) :
    (row.map zeroSmall).sum = row.sum - smallSum row := by
  induction row with
  | nil => simp [smallSum]
  | cons v rest ih =>
    rw [List.map_cons, List.sum_cons, List.sum_cons, smallSum_cons, ih]
    by_cases h : isSmallAlloc v = true
    · simp only [zeroSmall, h, if_pos]; ring
    · simp only [zeroSmall, h, Bool.false_eq_true, if_neg, not_false_eq_true]
      ring

theorem listMaxD_le (l : List ℚ) (d : ℚ) :
    d ≤ listMaxD l d ∧ ∀ x ∈ l, x ≤ listMaxD l d := by
  induction l generalizing d with
  | nil => simp [listMaxD]
  | cons v rest ih =>
    have h := ih (max d v)
    refine ⟨le_trans (le_max_left d v) h.1, ?_⟩
    intro x hx
    rcases List.mem_cons.mp hx with rfl | hx
    · exact le_trans (le_max_right d x) h.1
    · exact h.2 x hx

theorem listMaxD_mem_or (l : List ℚ) (d : ℚ) :
    listMaxD l d ∈ l ∨ listMaxD l d = d := by
  induction l generalizing d with
  | nil => right; rfl
  | cons v rest ih =>
    have h : listMaxD (v :: rest) d = listMaxD rest (max d v) := rfl
    rcases ih (max d v) with hm | he
    · left; rw [h]; exact List.mem_cons_of_mem _ hm
    · by_cases hdv : d ≤ v
      · left; rw [h, he, max_eq_right hdv]; exact List.mem_cons_self _ _
      · right; rw [h, he, max_eq_left (le_of_not_le hdv)]

theorem mergeIntoMax_nonneg {row : List ℚ} {m t : ℚ}
    (hrow : ∀ x ∈ row, 0 ≤ x) (ht : 0 ≤ t) :
    ∀ y ∈ mergeIntoMax row m t, 0 ≤ y := by
  induction row with
  | nil => intro y hy; cases hy
  | cons v rest ih =>
    intro y hy
    rw [mergeIntoMax] at hy
    by_cases hv : v = m
    · rw [if_pos hv] at hy
      rcases List.mem_cons.mp hy with heq | hy
      · have hv0 := hrow v (List.mem_cons_self v rest)
        rw [heq]; linarith
      · obtain ⟨x, hx, hxy⟩ := List.mem_map.mp hy
        rw [← hxy]
        exact zeroSmall_nonneg (hrow x (List.mem_cons_of_mem _ hx))
    · rw [if_neg hv] at hy
      rcases List.mem_cons.mp hy with heq | hy
      · rw [heq]
        exact zeroSmall_nonneg (hrow v (List.mem_cons_self v rest))
      · exact ih (fun x hx => hrow x (List.mem_cons_of_mem _ hx)) y hy

theorem mergeSmallsFirst_nonneg {row : List ℚ} {t : ℚ}
    (hrow : ∀ x ∈ row, 0 ≤ x) (ht : 0 ≤ t) :
    ∀ y ∈ mergeSmallsFirst row t, 0 ≤ y := by
  induction row with
  | nil => intro y hy; cases hy
  | cons v rest ih =>
    intro y hy
    rw [mergeSmallsFirst] at hy
    by_cases hv : isSmallAlloc v = true
    · simp only [hv, if_pos] at hy
      rcases List.mem_cons.mp hy with heq | hy
      · rw [heq]; exact ht
      · obtain ⟨x, hx, hxy⟩ := List.mem_map.mp hy
        rw [← hxy]
        exact zeroSmall_nonneg (hrow x (List.mem_cons_of_mem _ hx))
    · simp only [hv, if_neg, Bool.false_eq_true, not_false_eq_true] at hy
      rcases List.mem_cons.mp hy with heq | hy
      · rw [heq]; exact hrow v (List.mem_cons_self v rest)
      · exact ih (fun x hx => hrow x (List.mem_cons_of_mem _ hx)) y hy

theorem addToFirstMax_nonneg {row : List ℚ} {m u : ℚ}
    (hrow : ∀ x ∈ row, 0 ≤ x) (hu : 0 ≤ u) :
    ∀ y ∈ addToFirstMax row m u, 0 ≤ y := by
  induction row with
  | nil => intro y hy; cases hy
  | cons v rest ih =>
    intro y hy
    rw [addToFirstMax] at hy
    by_cases hv : v = m
    · rw [if_pos hv] at hy
      rcases List.mem_cons.mp hy with heq | hy
      · have hv0 := hrow v (List.mem_cons_self v rest)
        rw [heq]; linarith
      · exact hrow y (List.mem_cons_of_mem _ hy)
    · rw [if_neg hv] at hy
      rcases List.mem_cons.mp hy with heq | hy
      · rw [heq]; exact hrow v (List.mem_cons_self v rest)
      · exact ih (fun x hx => hrow x (List.mem_cons_of_mem _ hx)) y hy

theorem mergeIntoMax_sum_le (row : List ℚ) (m t : ℚ)
    (hm : isSmallAlloc m = false) (ht : 0 ≤ t) :
    (mergeIntoMax row m t).sum ≤ row.sum - smallSum row + t := by
  induction row with
  | nil => simpa [mergeIntoMax, smallSum] using ht
  | cons v rest ih =>
    rw [mergeIntoMax]
    by_cases hv : v = m
    · subst hv
      rw [if_pos rfl, List.sum_cons, map_zeroSmall_sum, List.sum_cons,
        smallSum_cons]
      simp only [hm, Bool.false_eq_true, if_neg, not_false_eq_true]
      linarith
    · rw [if_neg hv, List.sum_cons, List.sum_cons, smallSum_cons]
      by_cases hs : isSmallAlloc v = true
      · simp only [zeroSmall, hs, if_pos]
        linarith
      · simp only [zeroSmall, hs, Bool.false_eq_true, if_neg,
          not_false_eq_true]
        linarith

theorem mergeSmallsFirst_sum_le (row : List ℚ) (t : ℚ) (ht : 0 ≤ t) :
    (mergeSmallsFirst row t).sum ≤ row.sum - smallSum row + t := by
  induction row with
  | nil => simpa [mergeSmallsFirst, smallSum] using ht
  | cons v rest ih =>
    rw [mergeSmallsFirst]
    by_cases hs : isSmallAlloc v = true
    · simp only [hs, if_pos]
      rw [List.sum_cons, map_zeroSmall_sum, List.sum_cons, smallSum_cons]
      have hv0 : 0 < v := by
        unfold isSmallAlloc at hs
        exact of_decide_eq_true (Bool.and_elim_left hs)
      simp only [hs, if_pos]
      linarith
    · simp only [hs, Bool.false_eq_true, if_neg, not_false_eq_true]
      rw [List.sum_cons, List.sum_cons, smallSum_cons]
      simp only [hs, Bool.false_eq_true, if_neg, not_false_eq_true]
      linarith

theorem smallPassRow_nonneg {row : List ℚ} (h : ∀ x ∈ row, 0 ≤ x) :
    ∀ y ∈ smallPassRow row, 0 ≤ y := by
  intro y hy
  unfold smallPassRow at hy
  split at hy
  · split at hy
    · exact mergeIntoMax_nonneg h (smallSum_nonneg row) y hy
    · split at hy
      · exact mergeSmallsFirst_nonneg h (smallSum_nonneg row) y hy
      · obtain ⟨x, hx, hxy⟩ := List.mem_map.mp hy
        rw [← hxy]
        exact zeroSmall_nonneg (h x hx)
  · exact h y hy

theorem largeMax_not_small {row : List ℚ}
    (h : row.any isLargeAlloc = true) :
    isSmallAlloc (listMaxD (row.filter isLargeAlloc) 0) = false := by
  obtain ⟨x, hx, hpx⟩ := List.any_eq_true.mp h
  have hx1 : (1 : ℚ)/10 ≤ x := of_decide_eq_true hpx
  have hxf : x ∈ row.filter isLargeAlloc := List.mem_filter.mpr ⟨hx, hpx⟩
  have hle : x ≤ listMaxD (row.filter isLargeAlloc) 0 :=
    (listMaxD_le _ 0).2 x hxf
  unfold isSmallAlloc
  have hnlt : ¬ (listMaxD (row.filter isLargeAlloc) 0 < 1/10) := by linarith
  rw [decide_eq_false hnlt, Bool.and_false]

theorem smallPassRow_sum_le (row : List ℚ) :
    (smallPassRow row).sum ≤ row.sum := by
  unfold smallPassRow
  split
  · split
    · next h2 =>
      have := mergeIntoMax_sum_le row _ (smallSum row)
        (largeMax_not_small h2) (smallSum_nonneg row)
      linarith
    · split
      · have := mergeSmallsFirst_sum_le row (smallSum row) (smallSum_nonneg row)
        linarith
      · rw [map_zeroSmall_sum]
        have := smallSum_nonneg row
        linarith
  · exact le_refl row.sum

theorem smallPassRow_length (row : List ℚ) :
    (smallPassRow row).length = row.length := by
  have hmim : ∀ (l : List ℚ) (m t : ℚ),
      (mergeIntoMax l m t).length = l.length := by
    intro l m t
    induction l with
    | nil => rfl
    | cons v rest ih =>
      rw [mergeIntoMax]
      by_cases hv : v = m
      · simp [hv]
      · simp [hv, ih]
  have hmsf : ∀ (l : List ℚ) (t : ℚ),
      (mergeSmallsFirst l t).length = l.length := by
    intro l t
    induction l with
    | nil => rfl
    | cons v rest ih =>
      rw [mergeSmallsFirst]
      by_cases hv : isSmallAlloc v = true
      · simp [hv]
      · simp [hv, ih]
  unfold smallPassRow
  split
  · split
    · exact hmim row _ _
    · split
      · exact hmsf row _
      · simp
  · rfl

theorem mergeIntoMax_eq_set {row : List ℚ} {m : ℚ} (t : ℚ) (h : m ∈ row) :
    mergeIntoMax row m t =
      (row.map zeroSmall).set
        (row.findIdx (fun v => decide (v = m))) (m + t) := by
  induction row with
  | nil => cases h
  | cons v rest ih =>
    rw [mergeIntoMax, List.findIdx_cons]
    by_cases hv : v = m
    · subst hv
      simp [List.set_cons_zero]
    · have hm : m ∈ rest := by
        rcases List.mem_cons.mp h with h1 | h1
        · exact absurd h1.symm hv
        · exact h1
      simp only [hv, decide_eq_true_eq, if_neg, not_false_eq_true,
        List.map_cons, cond_false, List.set_cons_succ, decide_eq_false]
      rw [ih hm]

theorem mergeSmallsFirst_eq_set {row : List ℚ} (t : ℚ)
    (h : row.any isSmallAlloc = true) :
    mergeSmallsFirst row t =
      (row.map zeroSmall).set (row.findIdx isSmallAlloc) t := by
  induction row with
  | nil => simp at h
  | cons v rest ih =>
    rw [mergeSmallsFirst, List.findIdx_cons]
    by_cases hv : isSmallAlloc v = true
    · simp [hv, List.set_cons_zero]
    · have hv0 : isSmallAlloc v = false := Bool.eq_false_iff.mpr hv
      have hr : rest.any isSmallAlloc = true := by
        rcases List.any_eq_true.mp h with ⟨x, hx, hpx⟩
        rcases List.mem_cons.mp hx with heq | hx2
        · rw [heq] at hpx; exact absurd hpx hv
        · exact List.any_eq_true.mpr ⟨x, hx2, hpx⟩
      simp only [hv0, cond_false, List.map_cons, List.set_cons_succ]
      rw [ih hr]
      simp [zeroSmall, hv0]

theorem addToFirstMax_eq_set {row : List ℚ} {m : ℚ} (u : ℚ) (h : m ∈ row) :
    addToFirstMax row m u =
      row.set (row.findIdx (fun v => decide (v = m))) (m + u) := by
  induction row with
  | nil => cases h
  | cons v rest ih =>
    rw [addToFirstMax, List.findIdx_cons]
    by_cases hv : v = m
    · subst hv
      simp [List.set_cons_zero]
    · have hm : m ∈ rest := by
        rcases List.mem_cons.mp h with h1 | h1
        · exact absurd h1.symm hv
        · exact h1
      simp only [hv, decide_eq_true_eq, if_neg, not_false_eq_true,
        cond_false, List.set_cons_succ, decide_eq_false]
      rw [ih hm]

theorem getD_set_self (l : List ℚ) (i : ℕ) (x : ℚ) (h : i < l.length) :
    (l.set i x).getD i 0 = x := by
  simp [List.getD_eq_getElem?_getD, List.getElem?_set_self h]

theorem getD_set_ne (l : List ℚ) (i j : ℕ) (x : ℚ) (h : i ≠ j) :
    (l.set i x).getD j 0 = l.getD j 0 := by
  simp [List.getD_eq_getElem?_getD, List.getElem?_set_ne h]

theorem getD_map_zeroSmall (l : List ℚ) (j : ℕ) :
    (l.map zeroSmall).getD j 0 = zeroSmall (l.getD j 0) := by
  have hz : zeroSmall 0 = 0 := rfl
  simp only [List.getD_eq_getElem?_getD, List.getElem?_map]
  cases hl : l[j]? with
  | none => simp [hz]
  | some v => simp

theorem listMaxD_mem_of_pos {l : List ℚ}
    (h : ∃ x ∈ l, 0 < x) : listMaxD l 0 ∈ l := by
  rcases listMaxD_mem_or l 0 with hm | he
  · exact hm
  · obtain ⟨x, hx, hx0⟩ := h
    have := (listMaxD_le l 0).2 x hx
    rw [he] at this
    linarith

theorem largeMax_mem {row : List ℚ} (h : row.any isLargeAlloc = true) :
    listMaxD (row.filter isLargeAlloc) 0 ∈ row := by
  obtain ⟨x, hx, hpx⟩ := List.any_eq_true.mp h
  have hx1 : (1 : ℚ)/10 ≤ x := of_decide_eq_true hpx
  have hmem : listMaxD (row.filter isLargeAlloc) 0 ∈ row.filter isLargeAlloc := by
    apply listMaxD_mem_of_pos
    exact ⟨x, List.mem_filter.mpr ⟨hx, hpx⟩, by linarith⟩
  exact (List.mem_filter.mp hmem).1

theorem posMaxD_mem {row : List ℚ}
    (h : row.any (fun v => decide (0 < v)) = true) : posMaxD row ∈ row := by
  obtain ⟨x, hx, hpx⟩ := List.any_eq_true.mp h
  have hx0 : (0 : ℚ) < x := of_decide_eq_true hpx
  have hmem : posMaxD row ∈ row.filter (fun v => decide (0 < v)) := by
    apply listMaxD_mem_of_pos
    exact ⟨x, List.mem_filter.mpr ⟨hx, hpx⟩, hx0⟩
  exact (List.mem_filter.mp hmem).1

theorem tinyPassRow_nonneg {demand : ℚ} {row : List ℚ}
    (hrow : ∀ x ∈ row, 0 ≤ x) (hsum : 0 < demand → row.sum ≤ demand) :
    ∀ y ∈ tinyPassRow demand row, 0 ≤ y := by
  intro y hy
  unfold tinyPassRow at hy
  by_cases hd : demand ≤ 0
  · rw [if_pos hd] at hy; exact hrow y hy
  · rw [if_neg hd] at hy
    have hres : 0 ≤ demand - row.sum := by
      have := hsum (lt_of_not_le hd)
      linarith
    by_cases ht : demand - row.sum ≤ 1/100
    · rw [if_pos ht] at hy
      by_cases hp : row.any (fun v => decide (0 < v)) = true
      · rw [if_pos hp] at hy
        exact addToFirstMax_nonneg hrow hres y hy
      · rw [if_neg hp] at hy
        rcases List.mem_or_eq_of_mem_set hy with hmem | heq
        · exact hrow y hmem
        · rw [heq]; exact hres
    · rw [if_neg ht] at hy
      exact hrow y hy

theorem getD_eq_getElem (l : List ℚ) (j : ℕ) (h : j < l.length) :
    l.getD j 0 = l[j] := by
  simp [List.getD_eq_getElem?_getD, List.getElem?_eq_getElem h]

theorem getD_eq_zero_of_le (l : List ℚ) (j : ℕ) (h : l.length ≤ j) :
    l.getD j 0 = 0 := by
  simp [List.getD_eq_getElem?_getD, List.getElem?_eq_none h]

theorem no_small_getD {row : List ℚ} (h : row.any isSmallAlloc = false)
    (j : ℕ) : zeroSmall (row.getD j 0) = row.getD j 0 := by
  by_cases hj : j < row.length
  · rw [getD_eq_getElem _ _ hj]
    have hmem : row[j] ∈ row := List.getElem_mem hj
    have hs : isSmallAlloc row[j] = false :=
      Bool.eq_false_iff.mpr (List.any_eq_false.mp h _ hmem)
    simp [zeroSmall, hs]
  · rw [getD_eq_zero_of_le _ _ (le_of_not_lt hj)]
    rfl

theorem smallSum_eq_zero {row : List ℚ}
    (h : row.any isSmallAlloc = false) : smallSum row = 0 := by
  unfold smallSum
  have hf : row.filter isSmallAlloc = [] := by
    rw [List.filter_eq_nil_iff]
    exact List.any_eq_false.mp h
  rw [hf]
  rfl

theorem largeArgmax_spec {row : List ℚ} (h : row.any isLargeAlloc = true) :
    largeArgmax row < row.length ∧
    row.getD (largeArgmax row) 0 = listMaxD (row.filter isLargeAlloc) 0 := by
  have hmem := largeMax_mem h
  have hlt : row.findIdx
      (fun v => decide (v = listMaxD (row.filter isLargeAlloc) 0)) <
      row.length :=
    List.findIdx_lt_length_of_exists ⟨_, hmem, by simp⟩
  refine ⟨hlt, ?_⟩
  have hp : decide (row[row.findIdx
      (fun v => decide (v = listMaxD (row.filter isLargeAlloc) 0))] =
        listMaxD (row.filter isLargeAlloc) 0) = true :=
    @List.findIdx_getElem ℚ
      (fun v => decide (v = listMaxD (row.filter isLargeAlloc) 0)) row hlt
  rw [largeArgmax, getD_eq_getElem _ _ hlt]
  exact of_decide_eq_true hp

theorem posArgmax_spec {row : List ℚ}
    (h : row.any (fun v => decide (0 < v)) = true) :
    posArgmax row < row.length ∧
    row.getD (posArgmax row) 0 = posMaxD row := by
  have hmem := posMaxD_mem h
  have hlt : row.findIdx (fun v => decide (v = posMaxD row)) < row.length :=
    List.findIdx_lt_length_of_exists ⟨_, hmem, by simp⟩
  refine ⟨hlt, ?_⟩
  have hp : decide (row[row.findIdx
      (fun v => decide (v = posMaxD row))] = posMaxD row) = true :=
    @List.findIdx_getElem ℚ (fun v => decide (v = posMaxD row)) row hlt
  rw [posArgmax, getD_eq_getElem _ _ hlt]
  exact of_decide_eq_true hp

theorem firstSmallIdx_spec {row : List ℚ}
    (h : row.any isSmallAlloc = true) : firstSmallIdx row < row.length := by
  obtain ⟨x, hx, hpx⟩ := List.any_eq_true.mp h
  rw [firstSmallIdx]
  exact List.findIdx_lt_length_of_exists ⟨x, hx, hpx⟩

theorem isExistingSKU_map (l : List ℚ) :
    isExistingSKU (l.map existingEntry) =
      l.any (fun v => decide (0 < v)) := by
  induction l with
  | nil => rfl
  | cons v rest ih =>
    have hstep : isExistingSKU (existingEntry v :: rest.map existingEntry) =
        ((match existingEntry v with
          | some w => decide (0 ≤ w)
          | none => false) || isExistingSKU (rest.map existingEntry)) := by
      simp [isExistingSKU, List.any_cons]
    rw [List.map_cons, hstep, ih, List.any_cons]
    congr 1
    unfold existingEntry
    by_cases h : 0 < v
    · simp [h, le_of_lt h]
    · simp [h]

theorem foldlMin_spec (rest : List String) (acc : String) :
    (rest.foldl (fun a x => if x < a then x else a) acc = acc ∨
      rest.foldl (fun a x => if x < a then x else a) acc ∈ rest) ∧
    rest.foldl (fun a x => if x < a then x else a) acc ≤ acc ∧
    ∀ x ∈ rest, rest.foldl (fun a x => if x < a then x else a) acc ≤ x := by
  induction rest generalizing acc with
  | nil =>
    refine ⟨Or.inl rfl, le_refl acc, ?_⟩
    intro x hx
    cases hx
  | cons b t ih =>
    by_cases hb : b < acc
    · have hstep : (b :: t).foldl (fun a x => if x < a then x else a) acc =
          t.foldl (fun a x => if x < a then x else a) b := by
        have h0 : (b :: t).foldl (fun a x => if x < a then x else a) acc =
            t.foldl (fun a x => if x < a then x else a)
              (if b < acc then b else acc) := rfl
        rw [h0, if_pos hb]
      obtain ⟨hmem, hle, hall⟩ := ih b
      refine ⟨?_, ?_, ?_⟩
      · rcases hmem with he | hm
        · right; rw [hstep, he]; exact List.mem_cons_self b t
        · right; rw [hstep]; exact List.mem_cons_of_mem b hm
      · rw [hstep]; exact le_trans hle (le_of_lt hb)
      · intro x hx
        rw [hstep]
        rcases List.mem_cons.mp hx with heq | hx2
        · rw [heq]; exact hle
        · exact hall x hx2
    · have hstep : (b :: t).foldl (fun a x => if x < a then x else a) acc =
          t.foldl (fun a x => if x < a then x else a) acc := by
        have h0 : (b :: t).foldl (fun a x => if x < a then x else a) acc =
            t.foldl (fun a x => if x < a then x else a)
              (if b < acc then b else acc) := rfl
        rw [h0, if_neg hb]
      obtain ⟨hmem, hle, hall⟩ := ih acc
      refine ⟨?_, ?_, ?_⟩
      · rcases hmem with he | hm
        · left; rw [hstep, he]
        · right; rw [hstep]; exact List.mem_cons_of_mem b hm
      · rw [hstep]; exact hle
      · intro x hx
        rw [hstep]
        rcases List.mem_cons.mp hx with heq | hx2
        · rw [heq]; exact le_trans hle (not_lt.mp hb)
        · exact hall x hx2

/-! ## Theorems for C1 to C4 -/

/-- C1: with the `条支比` column absent, the code prices a box at
`wholesale_price * 2500`, not the claimed `wholesale_price * 250`
(`wholesale_price * 50000 / 200`); the column-present branch does follow the
claimed formula with default 200. -/
theorem c1_unit_box_price_eval :
    unitBoxPrice false 1 none = 2500 ∧
    unitBoxPrice true 1 none = 1 * 50000 / 200 ∧
    (2500 : ℚ) ≠ 1 * 50000 / 200 := by
  refine ⟨?_, ?_, ?_⟩ <;> norm_num [unitBoxPrice]

/-- C2 counterexample: the three C-type tests are not the same predicate.
The cell `"CX"` is C-type for the validator and for the MILP ratio/volume
constraints but not for the C-subtype constraints, and the cell `"x"` is
C-type for the validator only. -/
theorem c2_counterexample :
    validatorIsCType (some "CX") = true ∧
    milpIsCType (some "CX") = true ∧
    subtypeIsCType (some "CX") = false ∧
    validatorIsCType (some "x") = true ∧
    milpIsCType (some "x") = false := by
  decide

theorem mem_dropWhile_of_neg {α : Type} {p : α → Bool} {a : α} {l : List α}
    (hm : a ∈ l) (hp : p a = false) : a ∈ l.dropWhile p := by
  induction l with
  | nil => exact absurd hm (List.not_mem_nil a)
  | cons b t ih =>
    rw [List.dropWhile_cons]
    rcases List.mem_cons.mp hm with rfl | ht
    · simp [hp]
    · by_cases hb : p b = true
      · simpa [hb] using ih ht
      · simp only [hb, if_neg]
        simp [List.mem_cons, ht]

/-- C2 amended: the three site-specific C-type sets form a chain — a SKU in
the C-total of the subtype constraints is C-type for the MILP ratio/volume
constraints, and a SKU that is C-type for the MILP is C-type for the
validator — but the inclusions can be strict. -/
theorem c2_amended (c : Option String) :
    (subtypeIsCType c = true → milpIsCType c = true) ∧
    (milpIsCType c = true → validatorIsCType c = true) := by
  constructor
  · intro h
    cases c with
    | none => exact absurd h (by decide)
    | some s =>
      have hs : s = "C" := by
        simpa [subtypeIsCType, pyStrOfCell] using h
      subst hs; decide
  · intro h
    cases c with
    | none => exact absurd h (by decide)
    | some s =>
      have hc : 'C' ∈ s.toList := by
        simpa [milpIsCType, pyStrOfCell, List.contains] using h
      have h1 : 'C' ∈ s.toList.dropWhile pyIsSpace :=
        mem_dropWhile_of_neg hc (by decide)
      have h2 : 'C' ∈ (s.toList.dropWhile pyIsSpace).reverse :=
        List.mem_reverse.mpr h1
      have h3 : 'C' ∈ (s.toList.dropWhile pyIsSpace).reverse.dropWhile pyIsSpace :=
        mem_dropWhile_of_neg h2 (by decide)
      have h4 : 'C' ∈ pyStripList s.toList :=
        List.mem_reverse.mpr h3
      have hne : (pyStripList s.toList).isEmpty = false := by
        cases hl : pyStripList s.toList with
        | nil => rw [hl] at h4; exact absurd h4 (List.not_mem_nil _)
        | cons x xs => rfl
      have hv : validatorIsCType (some s) = !(pyStripList s.toList).isEmpty := rfl
      rw [hv, hne]
      rfl

/-- C2 witness: the chain theorem applied at the concrete cell `"C"`. -/
theorem c2_amended_witness : milpIsCType (some "C") = true :=
  (c2_amended (some "C")).1 (by decide)

/-- C3 counterexample: setting `enable_demand_constraints = false` makes the
aggregate validator skip the demand-satisfaction family and list it among the
skipped families. -/
theorem c3_counterexample :
    "demand" ∈ skippedValidators ⟨false, true, true, true, true, true⟩ ∧
    "demand" ∉ enabledValidators ⟨false, true, true, true, true, true⟩ := by
  decide

/-- C3 amended: only the fixed-cell and first-round-supply validators run
for every flag configuration; the demand-satisfaction validator runs exactly
when `enable_demand_constraints` is true (its default) and is listed as
skipped exactly when that flag is false. -/
theorem c3_amended (f : ValidatorFlags) :
    "fixed_allocation" ∈ enabledValidators f ∧
    "first_round_supply" ∈ enabledValidators f ∧
    "fixed_allocation" ∉ skippedValidators f ∧
    "first_round_supply" ∉ skippedValidators f ∧
    ("demand" ∈ skippedValidators f ↔ f.enableDemand = false) := by
  obtain ⟨a, b, c, d, e, g⟩ := f
  cases a <;> cases b <;> cases c <;> cases d <;> cases e <;> cases g <;> decide

/-- C4 counterexample: a time-limit stop holding a feasible incumbent
(PuLP status `Not Solved`) does not return the extracted allocation matrix;
`solve` returns the status string with no matrix. -/
theorem c4_counterexample :
    solveDispatch timeLimitStop [[100]] = ⟨"Not Solved", none⟩ ∧
    (solveDispatch timeLimitStop [[100]]).allocationMatrix ≠ some [[100]] := by
  decide

/-- C4 amended: `solve` returns the extracted allocation matrix only for a
proved-optimal status; infeasibility is reported explicitly with status
`"Infeasible"` and no matrix; every other status — including a time-limit
stop with a feasible incumbent — yields its status string and no matrix. -/
theorem c4_amended (ex : List (List ℚ)) :
    (solveDispatch .optimal ex).allocationMatrix = some ex ∧
    solveDispatch .infeasible ex = ⟨"Infeasible", none⟩ ∧
    (solveDispatch .notSolved ex).allocationMatrix = none ∧
    (solveDispatch .unbounded ex).allocationMatrix = none ∧
    (solveDispatch .undefined ex).allocationMatrix = none :=
  ⟨rfl, rfl, rfl, rfl, rfl⟩

/-- C3 witness: the amended theorem applied at the all-defaults flags. -/
theorem c3_amended_witness :
    "fixed_allocation" ∈
      enabledValidators ⟨true, true, true, true, true, true⟩ :=
  (c3_amended ⟨true, true, true, true, true, true⟩).1

/-- C4 witness: the amended dispatch theorem applied at a concrete
extracted matrix. -/
theorem c4_amended_witness :
    (solveDispatch .optimal [[(2 : ℚ)]]).allocationMatrix =
      some [[(2 : ℚ)]] :=
  (c4_amended [[(2 : ℚ)]]).1

/-! ## Theorems for C5 to C7 -/

/-- C5 counterexample: a SKU whose residue `demand - sum` is negative is not
left unchanged — the absorption pass has no lower bound on the residue, so
demand 1 with allocation `[3/2, 0]` (residue `-1/2`) is rewritten to
`[1, 0]`. -/
theorem c5_counterexample :
    (1 : ℚ) - ((3/2 : ℚ) :: 0 :: []).sum < 0 ∧
    tinyPassRow 1 ((3/2 : ℚ) :: 0 :: []) = (1 : ℚ) :: 0 :: [] ∧
    tinyPassRow 1 ((3/2 : ℚ) :: 0 :: []) ≠ (3/2 : ℚ) :: 0 :: [] := by
  refine ⟨by norm_num, ?_, ?_⟩ <;>
    norm_num [tinyPassRow, addToFirstMax, posMaxD, listMaxD, List.filter_cons]

/-- C5 amended: the absorption pass leaves a row unchanged only when its
demand is non-positive or its residue `demand - sum` exceeds 0.01; whenever
the residue is at most 0.01 — including zero and negative residues — the
residue is added to the first round holding the maximal positive allocation,
or written into the first round when no round is positive. -/
theorem c5_amended (demand : ℚ) (row : List ℚ) :
    (demand ≤ 0 → tinyPassRow demand row = row) ∧
    (0 < demand → 1/100 < demand - row.sum → tinyPassRow demand row = row) ∧
    (0 < demand → demand - row.sum ≤ 1/100 →
      row.any (fun v => decide (0 < v)) = true →
      tinyPassRow demand row =
        row.set (posArgmax row) (posMaxD row + (demand - row.sum))) ∧
    (0 < demand → demand - row.sum ≤ 1/100 →
      row.any (fun v => decide (0 < v)) = false →
      tinyPassRow demand row = row.set 0 (demand - row.sum)) := by
  refine ⟨?_, ?_, ?_, ?_⟩
  · intro hd
    unfold tinyPassRow
    rw [if_pos hd]
  · intro hd ht
    unfold tinyPassRow
    rw [if_neg (not_le.mpr hd), if_neg (not_le.mpr ht)]
  · intro hd ht hp
    unfold tinyPassRow
    rw [if_neg (not_le.mpr hd), if_pos ht, if_pos hp]
    exact addToFirstMax_eq_set _ (posMaxD_mem hp)
  · intro hd ht hp
    unfold tinyPassRow
    rw [if_neg (not_le.mpr hd), if_pos ht, if_neg (by simp [hp])]

/-- C5 witness: the amended theorem applied at demand 1 and the row
`[199/200, 0]`, whose residue 1/200 lies in (0, 0.01]. -/
theorem c5_amended_witness :
    tinyPassRow 1 ((199/200 : ℚ) :: 0 :: []) =
      ((199/200 : ℚ) :: 0 :: []).set (posArgmax ((199/200 : ℚ) :: 0 :: []))
        (posMaxD ((199/200 : ℚ) :: 0 :: []) +
          (1 - ((199/200 : ℚ) :: 0 :: []).sum)) :=
  (c5_amended 1 ((199/200 : ℚ) :: 0 :: [])).2.2.1
    (by norm_num) (by norm_num) (by norm_num)

/-- C6 counterexample: with every cell inside its variable bounds
(demand 1, supply 1, so every bound is 1), the composed passes drive a cell
negative: the row `[1, 1, 1]` with demand 1 becomes `[-1, 1, 1]`. -/
theorem c6_counterexample :
    (∀ x ∈ ((1 : ℚ) :: 1 :: 1 :: []),
      0 ≤ x ∧ x ≤ varUpperBound "第一轮" 1 1 ∧
        x ≤ varUpperBound "第二轮" 1 1) ∧
    tinyPassRow 1 (smallPassRow ((1 : ℚ) :: 1 :: 1 :: [])) =
      (-1 : ℚ) :: 1 :: 1 :: [] ∧
    ((-1 : ℚ) < 0) := by
  refine ⟨by norm_num [varUpperBound], ?_, by norm_num⟩
  norm_num [tinyPassRow, smallPassRow, addToFirstMax, posMaxD, listMaxD,
    List.filter_cons, isSmallAlloc, isLargeAlloc]

/-- C6 amended: the composed post-processing passes keep every cell
non-negative provided every input cell is non-negative and, for a SKU with
positive demand, the row total does not exceed the demand (as is the case
for solver outputs satisfying the demand-satisfaction equality); with only
the per-variable bounds the property fails. -/
theorem c6_amended (demand : ℚ) (row : List ℚ)
    (hrow : ∀ x ∈ row, 0 ≤ x) (hsum : 0 < demand → row.sum ≤ demand) :
    ∀ y ∈ tinyPassRow demand (smallPassRow row), 0 ≤ y := by
  apply tinyPassRow_nonneg (smallPassRow_nonneg hrow)
  intro hd
  exact le_trans (smallPassRow_sum_le row) (hsum hd)

/-- C6 witness: the amended theorem applied at demand 1, the row
`[1/2, 1/2]` and its first output cell. -/
theorem c6_amended_witness :
    0 ≤ (tinyPassRow 1 (smallPassRow ((1/2 : ℚ) :: (1/2 : ℚ) :: []))).getD
      0 0 :=
  c6_amended 1 ((1/2 : ℚ) :: (1/2 : ℚ) :: []) (by norm_num)
    (fun _ => by norm_num)
    ((tinyPassRow 1 (smallPassRow ((1/2 : ℚ) :: (1/2 : ℚ) :: []))).getD 0 0)
    (by norm_num [tinyPassRow, smallPassRow, addToFirstMax, posMaxD,
      listMaxD, List.filter_cons, isSmallAlloc, isLargeAlloc])

/-- C7: small-allocation coalescing partitions each row at threshold 0.1.
When a cell `>= 0.1` exists, the first round attaining the maximal such
value receives the sub-threshold total and every positive sub-threshold cell
is zeroed, other cells unchanged; when none exists, the first positive
sub-threshold round receives the sub-threshold total if it is `>= 0.1`,
and otherwise every positive sub-threshold cell is zeroed. -/
theorem c7_small_coalescing (row : List ℚ) :
    (row.any isLargeAlloc = true →
      (smallPassRow row).getD (largeArgmax row) 0 =
        row.getD (largeArgmax row) 0 + smallSum row ∧
      ∀ j, j ≠ largeArgmax row →
        (smallPassRow row).getD j 0 = zeroSmall (row.getD j 0)) ∧
    (row.any isLargeAlloc = false → 1/10 ≤ smallSum row →
      (smallPassRow row).getD (firstSmallIdx row) 0 = smallSum row ∧
      ∀ j, j ≠ firstSmallIdx row →
        (smallPassRow row).getD j 0 = zeroSmall (row.getD j 0)) ∧
    (row.any isLargeAlloc = false → smallSum row < 1/10 →
      ∀ j, (smallPassRow row).getD j 0 = zeroSmall (row.getD j 0)) := by
  refine ⟨?_, ?_, ?_⟩
  · intro hL
    by_cases hS : row.any isSmallAlloc = true
    · have heq : smallPassRow row =
          (row.map zeroSmall).set (largeArgmax row)
            (listMaxD (row.filter isLargeAlloc) 0 + smallSum row) := by
        unfold smallPassRow
        rw [if_pos hS, if_pos hL]
        exact mergeIntoMax_eq_set _ (largeMax_mem hL)
      obtain ⟨hlt, hval⟩ := largeArgmax_spec hL
      constructor
      · rw [heq, getD_set_self _ _ _ (by simpa using hlt), hval]
      · intro j hj
        rw [heq, getD_set_ne _ _ _ _ (Ne.symm hj), getD_map_zeroSmall]
    · have hS' : row.any isSmallAlloc = false := Bool.eq_false_iff.mpr hS
      have heq : smallPassRow row = row := by
        unfold smallPassRow
        rw [if_neg (by simp [hS'])]
      have hz := smallSum_eq_zero hS'
      constructor
      · rw [heq, hz, add_zero]
      · intro j hj
        rw [heq]
        exact (no_small_getD hS' j).symm
  · intro hL ht
    have hS : row.any isSmallAlloc = true := by
      by_contra hS
      have hS' : row.any isSmallAlloc = false := Bool.eq_false_iff.mpr hS
      rw [smallSum_eq_zero hS'] at ht
      linarith
    have heq : smallPassRow row =
        (row.map zeroSmall).set (firstSmallIdx row) (smallSum row) := by
      unfold smallPassRow
      rw [if_pos hS, if_neg (by simp [hL]), if_pos ht]
      exact mergeSmallsFirst_eq_set _ hS
    have hlt := firstSmallIdx_spec hS
    constructor
    · rw [heq, getD_set_self _ _ _ (by simpa using hlt)]
    · intro j hj
      rw [heq, getD_set_ne _ _ _ _ (Ne.symm hj), getD_map_zeroSmall]
  · intro hL ht j
    by_cases hS : row.any isSmallAlloc = true
    · have heq : smallPassRow row = row.map zeroSmall := by
        unfold smallPassRow
        rw [if_pos hS, if_neg (by simp [hL]), if_neg (not_le.mpr ht)]
      rw [heq, getD_map_zeroSmall]
    · have hS' : row.any isSmallAlloc = false := Bool.eq_false_iff.mpr hS
      have heq : smallPassRow row = row := by
        unfold smallPassRow
        rw [if_neg (by simp [hS'])]
      rw [heq]
      exact (no_small_getD hS' j).symm

/-- C7 witness: the coalescing theorem applied at the concrete row
`[1/20, 1/2, 3/100]`, whose super-threshold maximum 1/2 absorbs the
sub-threshold total 2/25. -/
theorem c7_small_coalescing_witness :
    (smallPassRow ((1/20 : ℚ) :: (1/2 : ℚ) :: (3/100 : ℚ) :: [])).getD
        (largeArgmax ((1/20 : ℚ) :: (1/2 : ℚ) :: (3/100 : ℚ) :: [])) 0 =
      ((1/20 : ℚ) :: (1/2 : ℚ) :: (3/100 : ℚ) :: []).getD
        (largeArgmax ((1/20 : ℚ) :: (1/2 : ℚ) :: (3/100 : ℚ) :: [])) 0 +
      smallSum ((1/20 : ℚ) :: (1/2 : ℚ) :: (3/100 : ℚ) :: []) :=
  ((c7_small_coalescing ((1/20 : ℚ) :: (1/2 : ℚ) :: (3/100 : ℚ) :: [])).1
    (by norm_num [isLargeAlloc])).1

/-! ## Theorems for C8 to C10 -/

/-- C8: for a SKU with positive demand and no fixed cell, the demand-split
constraint is rounds-used at most 2 when demand is at most 100 (covering
both the below-50 and the 50-100 branch), rounds-used at least 2 when demand
lies in (100, 250], and absent when demand exceeds 250; any fixed cell
(a strictly positive raw allocation) suppresses the constraint. The binary
couplings use M = 1000000 and eps = 1/100. -/
theorem c8_demand_split (d : ℚ) (rawFixed : List ℚ) :
    (0 < d → (∀ v ∈ rawFixed, v ≤ 0) →
      ((d ≤ 100 →
        demandSplitConstraint d rawFixed =
          some ⟨1000000, 1/100, .atMostTwo⟩) ∧
       (100 < d → d ≤ 250 →
        demandSplitConstraint d rawFixed =
          some ⟨1000000, 1/100, .atLeastTwo⟩) ∧
       (250 < d → demandSplitConstraint d rawFixed = none))) ∧
    ((∃ v ∈ rawFixed, 0 < v) → demandSplitConstraint d rawFixed = none) := by
  constructor
  · intro hd hfix
    have hex : isExistingSKU (rawFixed.map existingEntry) = false := by
      rw [isExistingSKU_map]
      apply List.any_eq_false.mpr
      intro x hx
      simp [not_lt.mpr (hfix x hx)]
    refine ⟨?_, ?_, ?_⟩
    · intro h100
      unfold demandSplitConstraint
      rw [if_neg (not_le.mpr hd), if_neg (by simp [hex])]
      by_cases h50 : d < 50
      · rw [if_pos h50]
      · rw [if_neg h50, if_pos h100]
    · intro h100 h250
      unfold demandSplitConstraint
      rw [if_neg (not_le.mpr hd), if_neg (by simp [hex]),
        if_neg (by linarith), if_neg (by linarith), if_pos h250]
    · intro h250
      unfold demandSplitConstraint
      rw [if_neg (not_le.mpr hd), if_neg (by simp [hex]),
        if_neg (by linarith), if_neg (by linarith), if_neg (by linarith)]
  · rintro ⟨v, hv, hv0⟩
    have hex : isExistingSKU (rawFixed.map existingEntry) = true := by
      rw [isExistingSKU_map]
      exact List.any_eq_true.mpr ⟨v, hv, by simp [hv0]⟩
    unfold demandSplitConstraint
    by_cases hd : d ≤ 0
    · rw [if_pos hd]
    · rw [if_neg hd, if_pos hex]

/-- C8 witness: the theorem applied at demand 75 and no fixed cells. -/
theorem c8_demand_split_witness :
    demandSplitConstraint 75 [] = some ⟨1000000, 1/100, .atMostTwo⟩ :=
  (((c8_demand_split 75 []).1 (by norm_num) (by simp)).1 (by norm_num))

/-- C9: the volume-limit override composes identically on both sides — when
`volume_limits` supplies `v` for a round, both the MILP bounds and the
validator bounds use `v` as the effective target with bounds
`v * (1 ± tolerance)`, regardless of the table value; a round absent from
the override map falls back to the table value on both sides. -/
theorem c9_volume_override (ov : Option (List (String × ℚ)))
    (table : String → ℚ) (tol : ℚ) (r : String) :
    (∀ v, overrideLookup ov r = some v →
      milpVolumeBounds ov table tol r = ⟨v, v * (1 + tol), v * (1 - tol)⟩ ∧
      validatorVolumeBounds ov table tol r =
        ⟨v, v * (1 + tol), v * (1 - tol)⟩) ∧
    (overrideLookup ov r = none →
      milpVolumeBounds ov table tol r =
        ⟨table r, table r * (1 + tol), table r * (1 - tol)⟩ ∧
      validatorVolumeBounds ov table tol r =
        ⟨table r, table r * (1 + tol), table r * (1 - tol)⟩) := by
  constructor
  · intro v hv
    constructor
    · unfold milpVolumeBounds
      rw [hv]
    · unfold validatorVolumeBounds
      rw [hv]
  · intro hv
    constructor
    · unfold milpVolumeBounds
      rw [hv]
    · unfold validatorVolumeBounds initRoundVolume
      rw [hv]

/-- C9 witness: the theorem applied with an override of 5000 for `第一轮`
over a table value of 4000 and tolerance 1/200. -/
theorem c9_volume_override_witness :
    milpVolumeBounds (some [("第一轮", 5000)]) (fun _ => 4000) (1/200)
        "第一轮" =
      ⟨5000, 5000 * (1 + 1/200), 5000 * (1 - 1/200)⟩ :=
  ((c9_volume_override (some [("第一轮", 5000)]) (fun _ => 4000) (1/200)
    "第一轮").1 5000 rfl).1

/-- C10: the supply cap is keyed to the literal label `第一轮` — every other
round's variable keeps upper bound `demand` for any supply — while the
supply validator picks the lexicographically smallest label under the string
order; on the round list `[第二轮, 第三轮]` it picks `第三轮` even though the
Chinese-numeral rank puts `第二轮` first. -/
theorem c10_first_round_label :
    (∀ r : String, r ≠ "第一轮" → ∀ d s : ℚ, varUpperBound r d s = d) ∧
    (∀ d s : ℚ, varUpperBound "第一轮" d s = min d s) ∧
    (∀ rounds : List String, ∀ m, validatorFirstRound rounds = some m →
      m ∈ rounds ∧ ∀ x ∈ rounds, m ≤ x) ∧
    (validatorFirstRound ["第二轮", "第三轮"] = some "第三轮" ∧
      roundRank "第二轮" = 2 ∧ roundRank "第三轮" = 3) := by
  refine ⟨?_, ?_, ?_, ?_, ?_, ?_⟩
  · intro r hr d s
    unfold varUpperBound
    rw [if_neg hr, min_self]
  · intro d s
    unfold varUpperBound
    rw [if_pos rfl]
  · intro rounds m hm
    cases rounds with
    | nil => cases hm
    | cons s rest =>
      have hm2 : m = rest.foldl (fun acc x => if x < acc then x else acc) s := by
        have : validatorFirstRound (s :: rest) =
            some (rest.foldl (fun acc x => if x < acc then x else acc) s) := rfl
        rw [this] at hm
        exact (Option.some.injEq _ _ ▸ hm).symm
      obtain ⟨hmem, hle, hall⟩ := foldlMin_spec rest s
      subst hm2
      constructor
      · rcases hmem with he | hmm
        · rw [he]
          exact List.mem_cons_self s rest
        · exact List.mem_cons_of_mem s hmm
      · intro x hx
        rcases List.mem_cons.mp hx with heq | hx2
        · rw [heq]
          exact hle
        · exact hall x hx2
  · have hlt : ("第三轮" : String) < "第二轮" := by
      rw [String.lt_iff_toList_lt]
      decide
    have hev : validatorFirstRound ["第二轮", "第三轮"] =
        some (if ("第三轮" : String) < "第二轮" then "第三轮" else "第二轮") :=
      rfl
    rw [hev, if_pos hlt]
  · decide
  · decide

/-- C10 witness: the theorem applied at the round `第五轮` — its variable
upper bound ignores the supply. -/
theorem c10_first_round_label_witness :
    varUpperBound "第五轮" 7 3 = 7 :=
  c10_first_round_label.1 "第五轮" (by decide) 7 3

end HuoyuanSpec
